import Mathlib

/-!
Shallow embedding of the habit-analytics core of the Habit-Tracker repository:
calculateStreaks (src/lib/streaks.ts) and calculateCompletionPercentage
(src/lib/analytics.ts), together with spec-side definitions used to state the
claims about them, and proofs settling those claims.

Modelling conventions:
* A JS Date is modelled by Option Int: some t is a valid date whose time value
  is t milliseconds since the epoch; none models an Invalid Date (time NaN).
* JS comparisons involving NaN are false; x !== y with both sides NaN is true.
  jsEq models strict equality of time values.
* Array sort with the comparator (a, b) => a.getTime() - b.getTime() is
  modelled by a stable insertion sort in which a comparator result that is NaN
  (either date invalid) keeps the relative order of the two elements; this is
  the behaviour of the major engines, and for lists of valid dates it is
  exactly the stable ascending sort mandated by ECMAScript.
* Math.round on a non-negative quotient n / d is modelled by exact rational
  round-half-up, written (n + d / 2) / d in integer floor division. The code
  applies it to day-multiple differences and to small percentages, where the
  float64 computation agrees with the exact rational one.
* The system clock is passed explicitly: the parameter now stands for the
  single instant the source reads via new Date() and Date.now().
-/

namespace Habit

/-- One habit completion record, projected to the two fields the engine reads
(Pick of HabitRecord in the source). date is the Date time value; none models
an Invalid Date. -/
structure HabitRecord where
  date : Option Int
  completed : Bool
deriving DecidableEq, Repr

/-- Result record of calculateStreaks. -/
structure StreakResult where
  currentStreak : Nat
  longestStreak : Nat
deriving DecidableEq, Repr

/-- Collapse a time value to the UTC midnight of its calendar day, as
new Date(Date.UTC(d.getUTCFullYear(), d.getUTCMonth(), d.getUTCDate())) does:
floor the time value to a multiple of 86400000 ms. -/
def dayNorm (t : Int) : Int := 86400000 * t.fdiv 86400000

/-- getUTCDate of both source files: normalize a date to UTC midnight; an
invalid date stays invalid (Date.UTC on NaN fields yields NaN). -/
def getUTCDate (d : Option Int) : Option Int := d.map dayNorm

/-- x.getTime() === y.getTime(): strict equality of time values, false
whenever either side is NaN. -/
def jsEq (a b : Option Int) : Bool :=
  match a, b with
  | some x, some y => x == y
  | _, _ => false

/-- areDatesConsecutive: Math.round(|t2 - t1| / 86400000) === 1, the round
written in exact integer arithmetic; false when either date is invalid. -/
def areDatesConsecutive (d1 d2 : Option Int) : Bool :=
  match d1, d2 with
  | some t1, some t2 => ((t2 - t1).natAbs + 43200000) / 86400000 == 1
  | _, _ => false

/-- The sort comparator (a, b) => a.getTime() - b.getTime() is strictly
negative exactly when both dates are valid and a is earlier; a NaN result is
treated as keep-order. -/
def cmpLt (a b : Option Int) : Bool :=
  match a, b with
  | some x, some y => decide (x < y)
  | _, _ => false

/-- Stable insertion for the sort model: a later element is placed after every
earlier element it does not compare strictly below. -/
def insertDate (x : Option Int) : List (Option Int) → List (Option Int)
  | [] => [x]
  | y :: ys => if cmpLt x y then x :: y :: ys else y :: insertDate x ys

/-- The sort on line 107 of the streak module (stable, ascending time). -/
def sortDates (l : List (Option Int)) : List (Option Int) :=
  l.foldl (fun acc x => insertDate x acc) []

/-- One iteration of the longest-streak loop (lines 119-140); the state is
(previousDate, currentRun, longestStreak). -/
def streakStep (s : Option (Option Int) × Nat × Nat) (d : Option Int) :
    Option (Option Int) × Nat × Nat :=
  let run :=
    match s.1 with
    | some p =>
      if areDatesConsecutive p d then s.2.1 + 1
      else if !jsEq d p then 1
      else s.2.1
    | none => 1
  (some d, run, max s.2.2 run)

/-- The backward walk of the current-streak loop (lines 162-175) over the
completed dates in descending order, matching dateToFind and stepping it one
day further back at each hit; it stops at the first miss. -/
def walkBack : List (Option Int) → Option Int → Nat
  | [], _ => 0
  | d :: ds, dateToFind =>
    if jsEq d dateToFind then
      1 + walkBack ds (getUTCDate (d.map fun t => t - 86400000))
    else 0

/-- Lines 110-182 of calculateStreaks, operating on the prepared
completedDates list; now is the clock reading in milliseconds. -/
def streaksFromDates (now : Int) (completedDates : List (Option Int)) : StreakResult :=
  if completedDates.isEmpty then ⟨0, 0⟩
  else
    let longestStreak := (completedDates.foldl streakStep (none, 0, 0)).2.2
    let today := getUTCDate (some now)
    let yesterday := getUTCDate (some (now - 86400000))
    match completedDates.reverse with
    | [] => ⟨0, longestStreak⟩
    | lastCompletedDate :: rest =>
      if jsEq lastCompletedDate today || jsEq lastCompletedDate yesterday then
        ⟨1 + walkBack rest (getUTCDate (lastCompletedDate.map fun t => t - 86400000)),
          longestStreak⟩
      else ⟨0, longestStreak⟩

/-- calculateStreaks (src/lib/streaks.ts lines 91-183): filter the completed
records, normalize their dates to UTC midnight, sort ascending, then derive
the longest and the current streak. -/
def calculateStreaks (now : Int) (habitRecords : List HabitRecord) : StreakResult :=
  if habitRecords.isEmpty then ⟨0, 0⟩
  else
    streaksFromDates now
      (sortDates ((habitRecords.filter fun r => r.completed).map fun r => getUTCDate r.date))

/-- Loop body of calculateCompletionPercentage (lines 105-123): skip records
with invalid dates, normalize, and collect the normalized day of completed
records lying in the window [ts, te] into the set. -/
def pctStep (ts te : Int) (s : Finset Int) (r : HabitRecord) : Finset Int :=
  match getUTCDate r.date with
  | none => s
  | some dt => if (ts ≤ dt ∧ dt ≤ te) ∧ r.completed then insert dt s else s

/-- calculateCompletionPercentage (src/lib/analytics.ts lines 60-133);
habitRecords is none when the collection is absent, a bound is none when it is
not a valid date. Math.round of the percentage is written in exact integer
arithmetic: round(100 * c / t) = (200 * c + t) / (2 * t). -/
def calculateCompletionPercentage (habitRecords : Option (List HabitRecord))
    (startDate endDate : Option Int) : Nat :=
  match habitRecords, startDate, endDate with
  | some records, some ts, some te =>
    if te < ts then 0
    else
      let totalDaysInPeriod := ((te - ts).toNat + 43200000) / 86400000 + 1
      if totalDaysInPeriod = 0 then 0
      else
        let uniqueCompletedDays := records.foldl (pctStep ts te) (∅ : Finset Int)
        (200 * uniqueCompletedDays.card + totalDaysInPeriod) / (2 * totalDaysInPeriod)
  | _, _, _ => 0

/-! ### Spec-side definitions, written from the words of the claims -/

/-- The normalized UTC days of the valid-dated completed records, in input
order (duplicates kept). -/
def completedDayList (records : List HabitRecord) : List Int :=
  (records.filter fun r => r.completed).filterMap fun r => getUTCDate r.date

/-- Every completed record carries a valid date. -/
def validCompleted (records : List HabitRecord) : Prop :=
  ∀ r ∈ records, r.completed = true → r.date ≠ none

instance decidableValidCompleted (records : List HabitRecord) :
    Decidable (validCompleted records) := by
  unfold validCompleted
  infer_instance

/-- Length of the longest backward chain d, d - 1 day, d - 2 days, ... of
days lying in S. -/
def backChain (S : Finset Int) (d : Int) : Nat :=
  Nat.findGreatest (fun k => ∀ i < k, d - 86400000 * (i : Int) ∈ S) S.card

/-- Length of the longest forward chain d, d + 1 day, d + 2 days, ... of days
lying in S. -/
def fwdChain (S : Finset Int) (d : Int) : Nat :=
  Nat.findGreatest (fun k => ∀ i < k, d + 86400000 * (i : Int) ∈ S) S.card

/-- Spec (claim C2): the length of the longest run of consecutive UTC calendar
days in the set of distinct completed days. -/
def longestRunSpec (S : Finset Int) : Nat := S.sup (fwdChain S)

/-- Insertion sort on plain day values, mirroring the sort model on lists of
valid dates. -/
def intInsert (x : Int) : List Int → List Int
  | [] => [x]
  | y :: ys => if x < y then x :: y :: ys else y :: intInsert x ys

def intSort (l : List Int) : List Int := l.foldl (fun acc x => intInsert x acc) []

/-- Claim C1 as written: the chronologically last completed day t yields
currentStreak 0 when strictly older than yesterday, and otherwise the
backward walk from t counting each successively older expected day that has a
completed record. -/
def claimedCurrentStreak (now : Int) (records : List HabitRecord) : Nat :=
  match (intSort (completedDayList records)).getLast? with
  | none => 0
  | some t =>
    if t < dayNorm now - 86400000 then 0
    else backChain (completedDayList records).toFinset t

/-- Claim C1 amended: currentStreak is 0 when the last completed day is
neither today nor yesterday, and otherwise the backward chain from it. -/
def amendedCurrentStreak (now : Int) (records : List HabitRecord) : Nat :=
  match (intSort (completedDayList records)).getLast? with
  | none => 0
  | some t =>
    if t = dayNorm now ∨ t = dayNorm now - 86400000 then
      backChain (completedDayList records).toFinset t
    else 0

/-- The longest-streak loop restricted to valid dates (plain day values). -/
def intStep (s : Option Int × Nat × Nat) (d : Int) : Option Int × Nat × Nat :=
  let run :=
    match s.1 with
    | some p =>
      if areDatesConsecutive (some p) (some d) then s.2.1 + 1
      else if d ≠ p then 1
      else s.2.1
    | none => 1
  (some d, run, max s.2.2 run)

/-- The backward walk restricted to valid dates (plain day values). -/
def intWalk : List Int → Int → Nat
  | [], _ => 0
  | d :: ds, e => if d = e then 1 + intWalk ds (d - 86400000) else 0

/-- Lift an all-valid loop state to the general loop state. -/
def liftState (s : Option Int × Nat × Nat) : Option (Option Int) × Nat × Nat :=
  (s.1.map some, s.2)

/-- Ascending run of consecutive valid days starting at t. -/
def chainFrom : Int → Nat → List (Option Int)
  | _, 0 => []
  | t, k + 1 => some t :: chainFrom (t + 86400000) k

/-- Descending run of consecutive valid days starting at e. -/
def descChain : Int → Nat → List (Option Int)
  | _, 0 => []
  | e, m + 1 => some e :: descChain (e - 86400000) m

/-- Spec (claim C3): number of distinct UTC days inside [s, e] having at least
one completed record. -/
def completedDayCountSpec (records : List HabitRecord) (s e : Int) : Nat :=
  ((completedDayList records).filter fun d => decide (s ≤ d ∧ d ≤ e)).toFinset.card

/-- Spec (claim C3): inclusive whole-day span of a window given by two UTC
midnights. -/
def totalDaysSpec (s e : Int) : Nat := (e - s).toNat / 86400000 + 1

/-- Spec (claim C3): round(100 * n / t), half rounded up, in exact integer
arithmetic. -/
def roundPct (n t : Nat) : Nat := (200 * n + t) / (2 * t)

/-! ### Day-normalization facts -/

theorem dvd_dayNorm (t : Int) : (86400000 : Int) ∣ dayNorm t :=
  dvd_mul_right _ _

theorem dayNorm_of_dvd {t : Int} (h : (86400000 : Int) ∣ t) : dayNorm t = t := by
  obtain ⟨k, rfl⟩ := h
  unfold dayNorm
  rw [Int.mul_fdiv_cancel_left _ (by norm_num)]

theorem dayNorm_sub_day (t : Int) : dayNorm (t - 86400000) = dayNorm t - 86400000 := by
  unfold dayNorm
  rw [Int.fdiv_eq_ediv _ (by norm_num), Int.fdiv_eq_ediv _ (by norm_num)]
  have h : t - 86400000 = t + -1 * 86400000 := by ring
  rw [h, Int.add_mul_ediv_right _ _ (by norm_num : (86400000 : Int) ≠ 0)]
  ring

theorem getUTCDate_some (t : Int) : getUTCDate (some t) = some (dayNorm t) := rfl

theorem getUTCDate_of_dvd {t : Int} (h : (86400000 : Int) ∣ t) :
    getUTCDate (some t) = some t := by
  rw [getUTCDate_some, dayNorm_of_dvd h]

theorem consec_iff_of_dvd {a b : Int} (ha : (86400000 : Int) ∣ a)
    (hb : (86400000 : Int) ∣ b) (hab : a ≤ b) :
    areDatesConsecutive (some a) (some b) = true ↔ b = a + 86400000 := by
  obtain ⟨x, rfl⟩ := ha
  obtain ⟨y, rfl⟩ := hb
  simp only [areDatesConsecutive, beq_iff_eq]
  omega

theorem consec_add_day (a : Int) :
    areDatesConsecutive (some a) (some (a + 86400000)) = true := by
  simp only [areDatesConsecutive, beq_iff_eq]
  omega

/-! ### The sort model -/

theorem insertDate_perm (x : Option Int) (l : List (Option Int)) :
    (insertDate x l).Perm (x :: l) := by
  induction l with
  | nil => exact List.Perm.refl _
  | cons y ys ih =>
    simp only [insertDate]
    split
    · exact List.Perm.refl _
    · exact ((ih.cons y).trans (List.Perm.swap x y ys))

theorem sortDates_aux_perm (l acc : List (Option Int)) :
    (l.foldl (fun a x => insertDate x a) acc).Perm (acc ++ l) := by
  induction l generalizing acc with
  | nil => simp
  | cons x xs ih =>
    simp only [List.foldl_cons]
    refine (ih (insertDate x acc)).trans ?_
    refine (List.Perm.append_right xs (insertDate_perm x acc)).trans ?_
    exact List.perm_middle.symm

theorem sortDates_perm (l : List (Option Int)) : (sortDates l).Perm l := by
  simpa using sortDates_aux_perm l []

theorem intInsert_perm (x : Int) (l : List Int) : (intInsert x l).Perm (x :: l) := by
  induction l with
  | nil => exact List.Perm.refl _
  | cons y ys ih =>
    simp only [intInsert]
    split
    · exact List.Perm.refl _
    · exact ((ih.cons y).trans (List.Perm.swap x y ys))

theorem intSort_aux_perm (l acc : List Int) :
    (l.foldl (fun a x => intInsert x a) acc).Perm (acc ++ l) := by
  induction l generalizing acc with
  | nil => simp
  | cons x xs ih =>
    simp only [List.foldl_cons]
    refine (ih (intInsert x acc)).trans ?_
    refine (List.Perm.append_right xs (intInsert_perm x acc)).trans ?_
    exact List.perm_middle.symm

theorem intSort_perm (l : List Int) : (intSort l).Perm l := by
  simpa using intSort_aux_perm l []

theorem intInsert_sorted {l : List Int} (x : Int) (h : l.Sorted (· ≤ ·)) :
    (intInsert x l).Sorted (· ≤ ·) := by
  induction l with
  | nil => simp [intInsert]
  | cons y ys ih =>
    rw [List.sorted_cons] at h
    obtain ⟨hy, hs⟩ := h
    simp only [intInsert]
    split
    · rename_i hxy
      rw [List.sorted_cons]
      constructor
      · intro b hb
        rcases List.mem_cons.mp hb with rfl | hb
        · exact le_of_lt hxy
        · exact le_of_lt (lt_of_lt_of_le hxy (hy b hb))
      · rw [List.sorted_cons]; exact ⟨hy, hs⟩
    · rename_i hxy
      rw [List.sorted_cons]
      constructor
      · intro b hb
        have hb' := (intInsert_perm x ys).mem_iff.mp hb
        rcases List.mem_cons.mp hb' with rfl | hmem
        · exact le_of_not_lt hxy
        · exact hy b hmem
      · exact ih hs

theorem intSort_sorted (l : List Int) : (intSort l).Sorted (· ≤ ·) := by
  suffices h : ∀ (l acc : List Int), acc.Sorted (· ≤ ·) →
      (l.foldl (fun a x => intInsert x a) acc).Sorted (· ≤ ·) by
    exact h l [] (List.sorted_nil)
  intro l
  induction l with
  | nil => intro acc h; simpa using h
  | cons x xs ih =>
    intro acc h
    simp only [List.foldl_cons]
    exact ih _ (intInsert_sorted x h)

theorem insertDate_map_some (x : Int) (l : List Int) :
    insertDate (some x) (l.map some) = (intInsert x l).map some := by
  induction l with
  | nil => rfl
  | cons y ys ih =>
    by_cases h : x < y
    · simp [insertDate, intInsert, cmpLt, h]
    · simp [insertDate, intInsert, cmpLt, h, ih]

theorem sortDates_map_some (l : List Int) :
    sortDates (l.map some) = (intSort l).map some := by
  suffices h : ∀ (l acc : List Int),
      (l.map some).foldl (fun a x => insertDate x a) (acc.map some) =
        (l.foldl (fun a x => intInsert x a) acc).map some by
    exact h l []
  intro l
  induction l with
  | nil => intro acc; rfl
  | cons x xs ih =>
    intro acc
    simp only [List.map_cons, List.foldl_cons, insertDate_map_some]
    exact ih _

/-! ### The prepared completed-day list -/

theorem map_getUTCDate_of_valid (L : List HabitRecord) (h : ∀ r ∈ L, r.date ≠ none) :
    L.map (fun r => getUTCDate r.date) =
      (L.filterMap fun r => getUTCDate r.date).map some := by
  induction L with
  | nil => rfl
  | cons r L ih =>
    obtain ⟨t, ht⟩ := Option.ne_none_iff_exists'.mp (h r (List.mem_cons_self r L))
    have hfr : getUTCDate r.date = some (dayNorm t) := by rw [ht]; rfl
    simp only [List.map_cons, List.filterMap_cons, hfr]
    rw [ih fun r hr => h r (List.mem_cons_of_mem _ hr)]

theorem completedDates_eq (records : List HabitRecord) (h : validCompleted records) :
    ((records.filter fun r => r.completed).map fun r => getUTCDate r.date) =
      (completedDayList records).map some := by
  unfold completedDayList
  refine map_getUTCDate_of_valid _ fun r hr => ?_
  have := List.mem_filter.mp hr
  exact h r this.1 this.2

theorem dvd_of_mem_completedDayList {records : List HabitRecord} {x : Int}
    (h : x ∈ completedDayList records) : (86400000 : Int) ∣ x := by
  unfold completedDayList at h
  obtain ⟨r, _, hr⟩ := List.mem_filterMap.mp h
  match hd : r.date with
  | none => rw [hd] at hr; exact absurd hr (by simp [getUTCDate])
  | some t =>
    rw [hd, getUTCDate_some, Option.some_inj] at hr
    exact hr ▸ dvd_dayNorm t

/-! ### Chain-length facts -/

theorem findGreatest_spec_of_zero (P : Nat → Prop) [DecidablePred P] (n : Nat)
    (h0 : P 0) : P (Nat.findGreatest P n) :=
  Nat.findGreatest_spec (Nat.zero_le n) h0

theorem backChain_chain (S : Finset Int) (d : Int) :
    ∀ i < backChain S d, d - 86400000 * (i : Int) ∈ S := by
  unfold backChain
  exact findGreatest_spec_of_zero (fun k => ∀ i < k, d - 86400000 * (i : Int) ∈ S)
    S.card (fun i hi => absurd hi (Nat.not_lt_zero i))

theorem fwdChain_chain (S : Finset Int) (d : Int) :
    ∀ i < fwdChain S d, d + 86400000 * (i : Int) ∈ S := by
  unfold fwdChain
  exact findGreatest_spec_of_zero (fun k => ∀ i < k, d + 86400000 * (i : Int) ∈ S)
    S.card (fun i hi => absurd hi (Nat.not_lt_zero i))

theorem backChain_le_card (S : Finset Int) (d : Int) : backChain S d ≤ S.card := by
  unfold backChain
  exact Nat.findGreatest_le S.card

theorem fwdChain_le_card (S : Finset Int) (d : Int) : fwdChain S d ≤ S.card := by
  unfold fwdChain
  exact Nat.findGreatest_le S.card

theorem le_backChain {S : Finset Int} {d : Int} {m : Nat} (hm : m ≤ S.card)
    (h : ∀ i < m, d - 86400000 * (i : Int) ∈ S) : m ≤ backChain S d := by
  unfold backChain
  exact Nat.le_findGreatest hm h

theorem le_fwdChain {S : Finset Int} {d : Int} {m : Nat} (hm : m ≤ S.card)
    (h : ∀ i < m, d + 86400000 * (i : Int) ∈ S) : m ≤ fwdChain S d := by
  unfold fwdChain
  exact Nat.le_findGreatest hm h

theorem chain_le_card {S : Finset Int} {k : Nat} (f : Nat → Int)
    (hinj : Function.Injective f) (h : ∀ i < k, f i ∈ S) : k ≤ S.card := by
  have hsub : (Finset.range k).image f ⊆ S := by
    intro x hx
    obtain ⟨i, hi, rfl⟩ := Finset.mem_image.mp hx
    exact h i (Finset.mem_range.mp hi)
  calc k = ((Finset.range k).image f).card := by
        rw [Finset.card_image_of_injective _ hinj, Finset.card_range]
    _ ≤ S.card := Finset.card_le_card hsub

theorem backChain_eq_zero {S : Finset Int} {d : Int} (h : d ∉ S) :
    backChain S d = 0 := by
  by_contra hne
  have hpos : 0 < backChain S d := Nat.pos_of_ne_zero hne
  have hm := backChain_chain S d 0 hpos
  simp only [Nat.cast_zero, mul_zero, sub_zero] at hm
  exact h hm

theorem backChain_succ {S : Finset Int} {d : Int} (h : d ∈ S) :
    backChain S d = backChain S (d - 86400000) + 1 := by
  have hch' := backChain_chain S (d - 86400000)
  have hP : ∀ i < backChain S (d - 86400000) + 1, d - 86400000 * (i : Int) ∈ S := by
    intro i hi
    cases i with
    | zero => simpa using h
    | succ j =>
      have hj := hch' j (by omega)
      have heq : d - 86400000 * ((j + 1 : Nat) : Int) =
          d - 86400000 - 86400000 * (j : Int) := by push_cast; ring
      rw [heq]; exact hj
  have hinj : Function.Injective (fun i : Nat => d - 86400000 * (i : Int)) := by
    intro a b hab
    simp only at hab
    omega
  have hcard : backChain S (d - 86400000) + 1 ≤ S.card := chain_le_card _ hinj hP
  have h1 : backChain S (d - 86400000) + 1 ≤ backChain S d := le_backChain hcard hP
  have h2 : backChain S d ≤ backChain S (d - 86400000) + 1 := by
    by_contra hlt
    push_neg at hlt
    have hch := backChain_chain S d
    have hP' : ∀ i < backChain S d - 1, d - 86400000 - 86400000 * (i : Int) ∈ S := by
      intro i hi
      have hj := hch (i + 1) (by omega)
      have heq : d - 86400000 * ((i + 1 : Nat) : Int) =
          d - 86400000 - 86400000 * (i : Int) := by push_cast; ring
      rw [heq] at hj; exact hj
    have hle : backChain S d - 1 ≤ S.card :=
      le_trans (Nat.sub_le _ _) (backChain_le_card S d)
    have h3 : backChain S d - 1 ≤ backChain S (d - 86400000) := le_backChain hle hP'
    omega
  omega

theorem sup_backChain_eq_sup_fwdChain (S : Finset Int) :
    S.sup (backChain S) = S.sup (fwdChain S) := by
  apply le_antisymm
  · apply Finset.sup_le
    intro d hd
    rcases Nat.eq_zero_or_pos (backChain S d) with h0 | hpos
    · simp [h0]
    · have hch := backChain_chain S d
      have hstart : d - 86400000 * ((backChain S d - 1 : Nat) : Int) ∈ S :=
        hch _ (by omega)
      have hfwd : backChain S d ≤
          fwdChain S (d - 86400000 * ((backChain S d - 1 : Nat) : Int)) := by
        apply le_fwdChain (backChain_le_card S d)
        intro i hi
        have hj := hch (backChain S d - 1 - i) (by omega)
        have heq : d - 86400000 * ((backChain S d - 1 : Nat) : Int) +
            86400000 * (i : Int) =
            d - 86400000 * ((backChain S d - 1 - i : Nat) : Int) := by
          rw [Nat.cast_sub (by omega), Nat.cast_sub (by omega), Nat.cast_sub (by omega)]
          push_cast
          ring
        rw [heq]; exact hj
      exact le_trans hfwd (Finset.le_sup hstart)
  · apply Finset.sup_le
    intro d hd
    rcases Nat.eq_zero_or_pos (fwdChain S d) with h0 | hpos
    · simp [h0]
    · have hch := fwdChain_chain S d
      have hend : d + 86400000 * ((fwdChain S d - 1 : Nat) : Int) ∈ S :=
        hch _ (by omega)
      have hbwd : fwdChain S d ≤
          backChain S (d + 86400000 * ((fwdChain S d - 1 : Nat) : Int)) := by
        apply le_backChain (fwdChain_le_card S d)
        intro i hi
        have hj := hch (fwdChain S d - 1 - i) (by omega)
        have heq : d + 86400000 * ((fwdChain S d - 1 : Nat) : Int) -
            86400000 * (i : Int) =
            d + 86400000 * ((fwdChain S d - 1 - i : Nat) : Int) := by
          rw [Nat.cast_sub (by omega), Nat.cast_sub (by omega), Nat.cast_sub (by omega)]
          push_cast
          ring
        rw [heq]; exact hj
      exact le_trans hbwd (Finset.le_sup hend)

/-! ### The longest-streak loop -/

theorem consec_self_false (p : Int) :
    areDatesConsecutive (some p) (some p) = false := by
  simp only [areDatesConsecutive, sub_self, Int.natAbs_zero]
  rfl

theorem streakStep_lift (s : Option Int × Nat × Nat) (d : Int) :
    streakStep (liftState s) (some d) = liftState (intStep s d) := by
  obtain ⟨p, r, L⟩ := s
  cases p with
  | none => rfl
  | some p =>
    by_cases hc : areDatesConsecutive (some p) (some d) = true
    · simp [streakStep, intStep, liftState, hc]
    · by_cases he : d = p
      · simp [streakStep, intStep, liftState, hc, he, jsEq]
      · simp [streakStep, intStep, liftState, hc, he, jsEq]

theorem foldl_streakStep_lift (l : List Int) (s : Option Int × Nat × Nat) :
    (l.map some).foldl streakStep (liftState s) = liftState (l.foldl intStep s) := by
  induction l generalizing s with
  | nil => rfl
  | cons d ds ih =>
    simp only [List.map_cons, List.foldl_cons, streakStep_lift]
    exact ih _

theorem intStep_some (p : Int) (r L : Nat) (d : Int) :
    intStep (some p, r, L) d =
      (some d,
       if areDatesConsecutive (some p) (some d) then r + 1
       else if d ≠ p then 1 else r,
       max L (if areDatesConsecutive (some p) (some d) then r + 1
              else if d ≠ p then 1 else r)) := rfl

theorem foldl_intStep_spec (xs : List Int) :
    ∀ (S : Finset Int) (p : Int) (r L : Nat),
      List.Sorted (· ≤ ·) (p :: xs) →
      (∀ x ∈ p :: xs, (86400000 : Int) ∣ x) →
      (∀ x ∈ p :: xs, x ∈ S) →
      (∀ s ∈ S, s ≤ p ∨ s ∈ xs) →
      r = backChain S p →
      (xs.foldl intStep (some p, r, L)).2.2 = max L (xs.toFinset.sup (backChain S)) := by
  induction xs with
  | nil =>
    intro S p r L _ _ _ _ _
    simp
  | cons d rest ih =>
    intro S p r L hsort hdvd hsub hS hr
    have hsort' : List.Sorted (· ≤ ·) (d :: rest) := (List.sorted_cons.mp hsort).2
    have hpd : p ≤ d := (List.sorted_cons.mp hsort).1 d (List.mem_cons_self _ _)
    have hdvdp : (86400000 : Int) ∣ p := hdvd p (List.mem_cons_self _ _)
    have hdvdd : (86400000 : Int) ∣ d :=
      hdvd d (List.mem_cons_of_mem _ (List.mem_cons_self _ _))
    have hdS : d ∈ S := hsub d (List.mem_cons_of_mem _ (List.mem_cons_self _ _))
    have hstep : intStep (some p, r, L) d =
        (some d, backChain S d, max L (backChain S d)) := by
      by_cases he : d = p
      · subst he
        rw [intStep_some, consec_self_false d]
        simp [hr]
      · by_cases hc : d = p + 86400000
        · have hcT : areDatesConsecutive (some p) (some d) = true :=
            (consec_iff_of_dvd hdvdp hdvdd hpd).mpr hc
          have hd' : d - 86400000 = p := by omega
          have hbc : backChain S d = backChain S p + 1 := by
            rw [backChain_succ hdS, hd']
          rw [intStep_some, hcT]
          simp [hr, hbc]
        · have hcF : areDatesConsecutive (some p) (some d) = false :=
            Bool.eq_false_iff.mpr fun h => hc ((consec_iff_of_dvd hdvdp hdvdd hpd).mp h)
          have hgap : p + 2 * 86400000 ≤ d := by omega
          have hnot : d - 86400000 ∉ S := by
            intro hmem
            rcases hS _ hmem with hle | hmem'
            · omega
            · rcases List.mem_cons.mp hmem' with heq | hmem''
              · omega
              · have hge : d ≤ d - 86400000 := (List.sorted_cons.mp hsort').1 _ hmem''
                omega
          have hbc : backChain S d = 1 := by
            rw [backChain_succ hdS, backChain_eq_zero hnot]
          rw [intStep_some, hcF]
          simp [he, hbc]
    rw [List.foldl_cons, hstep]
    have hSd : ∀ s ∈ S, s ≤ d ∨ s ∈ rest := by
      intro s hs
      rcases hS s hs with hle | hmem
      · exact Or.inl (le_trans hle hpd)
      · rcases List.mem_cons.mp hmem with rfl | hmem'
        · exact Or.inl (le_refl _)
        · exact Or.inr hmem'
    rw [ih S d (backChain S d) (max L (backChain S d)) hsort'
      (fun x hx => hdvd x (List.mem_cons_of_mem _ hx))
      (fun x hx => hsub x (List.mem_cons_of_mem _ hx)) hSd rfl]
    rw [List.toFinset_cons, Finset.sup_insert]
    exact max_assoc L (backChain S d) (rest.toFinset.sup (backChain S))

theorem intLongest_eq_sup (l : List Int) (hsort : List.Sorted (· ≤ ·) l)
    (hdvd : ∀ x ∈ l, (86400000 : Int) ∣ x) :
    (l.foldl intStep (none, 0, 0)).2.2 = l.toFinset.sup (backChain l.toFinset) := by
  cases l with
  | nil => simp
  | cons x xs =>
    rw [List.foldl_cons]
    have hstep : intStep (none, 0, 0) x = (some x, 1, 1) := rfl
    rw [hstep]
    have hx : x ∈ (x :: xs).toFinset := by simp
    have hnot : x - 86400000 ∉ (x :: xs).toFinset := by
      intro hmem
      have hmem' := List.mem_toFinset.mp hmem
      rcases List.mem_cons.mp hmem' with heq | hmem''
      · omega
      · have := (List.sorted_cons.mp hsort).1 _ hmem''
        omega
    have hbcx : backChain ((x :: xs).toFinset) x = 1 := by
      rw [backChain_succ hx, backChain_eq_zero hnot]
    rw [foldl_intStep_spec xs ((x :: xs).toFinset) x 1 1 hsort hdvd
      (fun y hy => List.mem_toFinset.mpr hy)
      (fun s hs => by
        rcases List.mem_cons.mp (List.mem_toFinset.mp hs) with rfl | h
        · exact Or.inl (le_refl _)
        · exact Or.inr h)
      hbcx.symm]
    rw [List.toFinset_cons] at hbcx
    rw [List.toFinset_cons, Finset.sup_insert, hbcx]

theorem streaksFromDates_cons (now : Int) {l : List (Option Int)} {a : Option Int}
    {rest : List (Option Int)} (hrev : l.reverse = a :: rest) :
    streaksFromDates now l =
      if jsEq a (getUTCDate (some now)) || jsEq a (getUTCDate (some (now - 86400000))) then
        ⟨1 + walkBack rest (getUTCDate (a.map fun t => t - 86400000)),
          (l.foldl streakStep (none, 0, 0)).2.2⟩
      else ⟨0, (l.foldl streakStep (none, 0, 0)).2.2⟩ := by
  have hne : l ≠ [] := by
    intro h
    rw [h] at hrev
    simp at hrev
  unfold streaksFromDates
  rw [if_neg (by simpa [List.isEmpty_iff] using hne), hrev]

theorem streaksFromDates_longest (now : Int) (l : List (Option Int)) (hne : l ≠ []) :
    (streaksFromDates now l).longestStreak = (l.foldl streakStep (none, 0, 0)).2.2 := by
  cases hrev : l.reverse with
  | nil => exact absurd (List.reverse_eq_nil_iff.mp hrev) hne
  | cons a rest =>
    rw [streaksFromDates_cons now hrev]
    split <;> rfl

theorem calculateStreaks_valid_eq (now : Int) (records : List HabitRecord)
    (hv : validCompleted records) (hne : records ≠ []) :
    calculateStreaks now records =
      streaksFromDates now ((intSort (completedDayList records)).map some) := by
  unfold calculateStreaks
  rw [if_neg (by simpa [List.isEmpty_iff] using hne), completedDates_eq records hv,
    sortDates_map_some]

theorem longest_of_calculateStreaks (now : Int) (records : List HabitRecord)
    (hv : validCompleted records) :
    (calculateStreaks now records).longestStreak =
      (completedDayList records).toFinset.sup
        (backChain (completedDayList records).toFinset) := by
  by_cases hne : records = []
  · subst hne
    simp [calculateStreaks, completedDayList]
  · rw [calculateStreaks_valid_eq now records hv hne]
    cases hsort : intSort (completedDayList records) with
    | nil =>
      have hdnil : completedDayList records = [] := by
        have hp := intSort_perm (completedDayList records)
        rw [hsort] at hp
        exact (hp.symm).eq_nil
      rw [hdnil]
      simp [streaksFromDates]
    | cons y ys =>
      rw [← hsort]
      have hmapne : (intSort (completedDayList records)).map some ≠ [] := by
        rw [hsort]; simp
      rw [streaksFromDates_longest now _ hmapne]
      have hlift : ((intSort (completedDayList records)).map some).foldl streakStep
          (none, 0, 0) =
          liftState ((intSort (completedDayList records)).foldl intStep (none, 0, 0)) :=
        foldl_streakStep_lift (intSort (completedDayList records)) (none, 0, 0)
      rw [hlift]
      have hl2 : ∀ s : Option Int × Nat × Nat, (liftState s).2.2 = s.2.2 := fun _ => rfl
      rw [hl2]
      rw [intLongest_eq_sup (intSort (completedDayList records))
        (intSort_sorted (completedDayList records))
        (fun x hx =>
          dvd_of_mem_completedDayList
            ((intSort_perm (completedDayList records)).mem_iff.mp hx))]
      rw [List.toFinset_eq_of_perm _ _ (intSort_perm (completedDayList records))]

/-! ### The current-streak walk -/

theorem walkBack_map_some (ds : List Int) :
    ∀ e : Int, (86400000 : Int) ∣ e →
      walkBack (ds.map some) (some e) = intWalk ds e := by
  induction ds with
  | nil => intro e _; rfl
  | cons d ds' ih =>
    intro e he
    by_cases hde : d = e
    · subst hde
      have hg : getUTCDate (some (d - 86400000)) = some (d - 86400000) :=
        getUTCDate_of_dvd (by omega)
      simp [walkBack, intWalk, jsEq, hg, ih (d - 86400000) (by omega)]
    · simp [walkBack, intWalk, jsEq, hde]

theorem intWalk_eq_backChain (ds : List Int) :
    ∀ (e : Int) (S : Finset Int),
      (86400000 : Int) ∣ e →
      (∀ x ∈ ds, (86400000 : Int) ∣ x) →
      List.Sorted (· > ·) ds →
      (∀ x ∈ ds, x ≤ e) →
      (∀ x ∈ ds, x ∈ S) →
      (∀ x ∈ S, x ≤ e → x ∈ ds) →
      intWalk ds e = backChain S e := by
  induction ds with
  | nil =>
    intro e S _ _ _ _ _ hSmem
    have heS : e ∉ S := fun h => absurd (hSmem e h (le_refl e)) (List.not_mem_nil e)
    exact (backChain_eq_zero heS).symm
  | cons d ds' ih =>
    intro e S hdvde hdvd hsorted hle hmem hSmem
    have hdle : d ≤ e := hle d (List.mem_cons_self _ _)
    by_cases hde : d = e
    · subst hde
      rw [intWalk, if_pos rfl]
      have hdS : d ∈ S := hmem d (List.mem_cons_self _ _)
      rw [backChain_succ hdS, Nat.add_comm]
      congr 1
      apply ih (d - 86400000) S (by omega)
        (fun x hx => hdvd x (List.mem_cons_of_mem _ hx))
        ((List.sorted_cons.mp hsorted).2)
      · intro x hx
        have h1 := (List.sorted_cons.mp hsorted).1 x hx
        have h2 := hdvd x (List.mem_cons_of_mem _ hx)
        omega
      · exact fun x hx => hmem x (List.mem_cons_of_mem _ hx)
      · intro x hx hxe
        have hx' := hSmem x hx (by omega)
        rcases List.mem_cons.mp hx' with rfl | hx''
        · omega
        · exact hx''
    · rw [intWalk, if_neg hde]
      have heS : e ∉ S := by
        intro hin
        rcases List.mem_cons.mp (hSmem e hin (le_refl e)) with heq | hin'
        · exact hde heq.symm
        · have := (List.sorted_cons.mp hsorted).1 e hin'
          omega
      exact (backChain_eq_zero heS).symm

theorem current_of_calculateStreaks (now : Int) (records : List HabitRecord)
    (hv : validCompleted records) (hnd : (completedDayList records).Nodup) :
    (calculateStreaks now records).currentStreak = amendedCurrentStreak now records := by
  by_cases hne : records = []
  · subst hne; rfl
  · rw [calculateStreaks_valid_eq now records hv hne]
    cases hrevInt : (intSort (completedDayList records)).reverse with
    | nil =>
      have hs : intSort (completedDayList records) = [] :=
        List.reverse_eq_nil_iff.mp hrevInt
      rw [hs]
      unfold amendedCurrentStreak
      rw [hs]
      rfl
    | cons t restInt =>
      have hrev : ((intSort (completedDayList records)).map some).reverse =
          some t :: restInt.map some := by
        rw [← List.map_reverse, hrevInt, List.map_cons]
      rw [streaksFromDates_cons now hrev]
      have hglast : (intSort (completedDayList records)).getLast? = some t := by
        rw [List.getLast?_eq_head?_reverse, hrevInt]
        rfl
      have htmem : t ∈ completedDayList records := by
        refine (intSort_perm (completedDayList records)).mem_iff.mp ?_
        rw [← List.mem_reverse, hrevInt]
        exact List.mem_cons_self _ _
      have hdvdt : (86400000 : Int) ∣ t := dvd_of_mem_completedDayList htmem
      have hyest : getUTCDate (some (now - 86400000)) = some (dayNorm now - 86400000) := by
        rw [getUTCDate_some, dayNorm_sub_day]
      have hcond : (jsEq (some t) (getUTCDate (some now)) ||
          jsEq (some t) (getUTCDate (some (now - 86400000)))) =
          (decide (t = dayNorm now) || decide (t = dayNorm now - 86400000)) := by
        rw [getUTCDate_some, hyest]
        by_cases h1 : t = dayNorm now <;> by_cases h2 : t = dayNorm now - 86400000 <;>
          simp [jsEq, h1, h2]
      unfold amendedCurrentStreak
      rw [hglast]
      by_cases hc : t = dayNorm now ∨ t = dayNorm now - 86400000
      · have hbT : (jsEq (some t) (getUTCDate (some now)) ||
            jsEq (some t) (getUTCDate (some (now - 86400000)))) = true := by
          rw [hcond]
          rcases hc with h | h <;> simp [h]
        rw [if_pos hbT]
        show _ = if t = dayNorm now ∨ t = dayNorm now - 86400000 then
          backChain (completedDayList records).toFinset t else 0
        rw [if_pos hc]
        show 1 + walkBack (restInt.map some)
            (getUTCDate ((some t).map fun x => x - 86400000)) = _
        have hmap : (some t).map (fun x => x - 86400000) = some (t - 86400000) := rfl
        have hg : getUTCDate (some (t - 86400000)) = some (t - 86400000) :=
          getUTCDate_of_dvd (by omega)
        rw [hmap, hg, walkBack_map_some restInt (t - 86400000) (by omega)]
        have hsorted : List.Sorted (· > ·) (t :: restInt) := by
          rw [← hrevInt, List.Sorted, List.pairwise_reverse]
          exact (intSort_sorted (completedDayList records)).lt_of_le
            (((intSort_perm (completedDayList records)).nodup_iff).mpr hnd)
        have hmemrev : ∀ x ∈ t :: restInt, x ∈ completedDayList records := by
          intro x hx
          refine (intSort_perm (completedDayList records)).mem_iff.mp ?_
          rw [← List.mem_reverse, hrevInt]
          exact hx
        have htS : t ∈ (completedDayList records).toFinset := List.mem_toFinset.mpr htmem
        rw [intWalk_eq_backChain restInt (t - 86400000) (completedDayList records).toFinset
          (by omega)
          (fun x hx =>
            dvd_of_mem_completedDayList (hmemrev x (List.mem_cons_of_mem _ hx)))
          ((List.sorted_cons.mp hsorted).2)
          (fun x hx => by
            have h1 := (List.sorted_cons.mp hsorted).1 x hx
            have h2 := dvd_of_mem_completedDayList (hmemrev x (List.mem_cons_of_mem _ hx))
            omega)
          (fun x hx => List.mem_toFinset.mpr (hmemrev x (List.mem_cons_of_mem _ hx)))
          (fun x hx hxe => by
            have hx' : x ∈ t :: restInt := by
              rw [← hrevInt, List.mem_reverse]
              exact (intSort_perm (completedDayList records)).mem_iff.mpr
                (List.mem_toFinset.mp hx)
            rcases List.mem_cons.mp hx' with rfl | hx''
            · omega
            · exact hx'')]
        rw [Nat.add_comm]
        exact (backChain_succ htS).symm
      · have hbF : (jsEq (some t) (getUTCDate (some now)) ||
            jsEq (some t) (getUTCDate (some (now - 86400000)))) = false := by
          rw [hcond]
          push_neg at hc
          simp [hc.1, hc.2]
        have hnc : ¬(jsEq (some t) (getUTCDate (some now)) ||
            jsEq (some t) (getUTCDate (some (now - 86400000)))) = true := by
          simp [hbF]
        rw [if_neg hnc]
        show _ = if t = dayNorm now ∨ t = dayNorm now - 86400000 then
          backChain (completedDayList records).toFinset t else 0
        rw [if_neg hc]

/-! ### The current streak never exceeds the longest streak -/

theorem chainFrom_snoc (k : Nat) : ∀ t : Int,
    chainFrom t (k + 1) = chainFrom t k ++ [some (t + 86400000 * (k : Int))] := by
  induction k with
  | zero => intro t; simp [chainFrom]
  | succ k ih =>
    intro t
    show some t :: chainFrom (t + 86400000) (k + 1) = _
    rw [ih (t + 86400000)]
    have harith : t + 86400000 + 86400000 * (k : Int) =
        t + 86400000 * ((k : Int) + 1) := by ring
    rw [harith]
    have hcast : ((k + 1 : Nat) : Int) = (k : Int) + 1 := by push_cast; ring
    rw [hcast]
    rfl

theorem walkBack_struct (ds : List (Option Int)) :
    ∀ (e : Int) (m : Nat), (86400000 : Int) ∣ e → walkBack ds (some e) = m →
      ∃ tail, ds = descChain e m ++ tail := by
  induction ds with
  | nil =>
    intro e m _ hw
    rw [walkBack] at hw
    exact ⟨[], by rw [← hw]; rfl⟩
  | cons d ds' ih =>
    intro e m hdvd hw
    rw [walkBack] at hw
    by_cases hj : jsEq d (some e) = true
    · have hd : d = some e := by
        cases d with
        | none => simp [jsEq] at hj
        | some x =>
          simp only [jsEq, beq_iff_eq] at hj
          rw [hj]
      subst hd
      rw [if_pos hj] at hw
      have hg : getUTCDate ((some e).map fun t => t - 86400000) =
          some (e - 86400000) := by
        show getUTCDate (some (e - 86400000)) = _
        exact getUTCDate_of_dvd (by omega)
      rw [hg] at hw
      cases m with
      | zero => omega
      | succ m' =>
        have hw' : walkBack ds' (some (e - 86400000)) = m' := by omega
        obtain ⟨tail, htail⟩ := ih (e - 86400000) m' (by omega) hw'
        refine ⟨tail, ?_⟩
        show some e :: ds' = (some e :: descChain (e - 86400000) m') ++ tail
        rw [htail]
        rfl
    · rw [if_neg hj] at hw
      exact ⟨d :: ds', by rw [← hw]; rfl⟩

theorem descChain_reverse (m : Nat) : ∀ e : Int,
    (descChain e m).reverse ++ [some (e + 86400000)] =
      chainFrom (e + 86400000 - 86400000 * (m : Int)) (m + 1) := by
  induction m with
  | zero =>
    intro e
    simp [descChain, chainFrom]
  | succ m' ih =>
    intro e
    show ((some e :: descChain (e - 86400000) m').reverse) ++ [some (e + 86400000)] = _
    rw [List.reverse_cons, List.append_assoc]
    have h1 := ih (e - 86400000)
    rw [show e - 86400000 + 86400000 = e from by ring] at h1
    show (descChain (e - 86400000) m').reverse ++ ([some e] ++ [some (e + 86400000)]) = _
    rw [← List.append_assoc, h1]
    have h2 := chainFrom_snoc (m' + 1) (e - 86400000 * (m' : Int))
    rw [show e - 86400000 * (m' : Int) + 86400000 * ((m' + 1 : Nat) : Int) =
      e + 86400000 from by push_cast; ring] at h2
    rw [← h2]
    have h3 : e - 86400000 * (m' : Int) =
        e + 86400000 - 86400000 * ((m' + 1 : Nat) : Int) := by push_cast; ring
    rw [h3]

theorem streakStep_fst (s : Option (Option Int) × Nat × Nat) (d : Option Int) :
    (streakStep s d).1 = some d := rfl

theorem streakStep_snd_le (s : Option (Option Int) × Nat × Nat) (d : Option Int) :
    (streakStep s d).2.1 ≤ (streakStep s d).2.2 := by
  obtain ⟨p, r, L⟩ := s
  exact le_max_right _ _

theorem streakStep_some_eq (p : Option Int) (r L : Nat) (d : Option Int) :
    streakStep (some p, r, L) d =
      (some d,
       if areDatesConsecutive p d then r + 1 else if !jsEq d p then 1 else r,
       max L (if areDatesConsecutive p d then r + 1
              else if !jsEq d p then 1 else r)) := rfl

theorem streakStep_run_pos (s : Option (Option Int) × Nat × Nat) (d : Option Int)
    (h : s.1 ≠ none → 1 ≤ s.2.1) : 1 ≤ (streakStep s d).2.1 := by
  obtain ⟨p, r, L⟩ := s
  cases p with
  | none => exact le_refl 1
  | some p =>
    have hr : 1 ≤ r := h (by simp)
    rw [streakStep_some_eq]
    show 1 ≤ if areDatesConsecutive p d then r + 1 else if !jsEq d p then 1 else r
    split
    · omega
    · split
      · omega
      · exact hr

theorem foldl_streakStep_invariant (l : List (Option Int)) :
    ∀ s : Option (Option Int) × Nat × Nat,
      s.2.1 ≤ s.2.2 → (s.1 ≠ none → 1 ≤ s.2.1) →
      (l.foldl streakStep s).2.1 ≤ (l.foldl streakStep s).2.2 ∧
        ((l.foldl streakStep s).1 ≠ none → 1 ≤ (l.foldl streakStep s).2.1) ∧
        (l ≠ [] → (l.foldl streakStep s).1 ≠ none) := by
  induction l with
  | nil => exact fun s h1 h2 => ⟨h1, h2, fun h => absurd rfl h⟩
  | cons d ds ih =>
    intro s h1 h2
    rw [List.foldl_cons]
    have hstep1 : (streakStep s d).2.1 ≤ (streakStep s d).2.2 := streakStep_snd_le s d
    have hstep2 : (streakStep s d).1 ≠ none → 1 ≤ (streakStep s d).2.1 :=
      fun _ => streakStep_run_pos s d h2
    obtain ⟨ih1, ih2, ih3⟩ := ih (streakStep s d) hstep1 hstep2
    refine ⟨ih1, ih2, fun _ => ?_⟩
    cases ds with
    | nil =>
      rw [List.foldl_nil, streakStep_fst]
      simp
    | cons y ys => exact ih3 (by simp)

theorem chain_run (k : Nat) : ∀ (t : Int) (r L : Nat), r ≤ L →
    r + k ≤ ((chainFrom t k).foldl streakStep (some (some (t - 86400000)), r, L)).2.2 := by
  induction k with
  | zero => intro t r L h; simpa using h
  | succ k ih =>
    intro t r L hrL
    show r + (k + 1) ≤
      ((some t :: chainFrom (t + 86400000) k).foldl streakStep
        (some (some (t - 86400000)), r, L)).2.2
    rw [List.foldl_cons]
    have hcT := consec_add_day (t - 86400000)
    rw [show t - 86400000 + 86400000 = t from by ring] at hcT
    have hstep : streakStep (some (some (t - 86400000)), r, L) (some t) =
        (some (some t), r + 1, max L (r + 1)) := by
      simp [streakStep, hcT]
    rw [hstep]
    have hnext := ih (t + 86400000) (r + 1) (max L (r + 1)) (le_max_right _ _)
    rw [show t + 86400000 - 86400000 = t from by ring] at hnext
    omega

theorem longest_ge_chain (l₀ : List (Option Int)) (t : Int) (m : Nat) :
    m + 1 ≤ ((l₀ ++ chainFrom t (m + 1)).foldl streakStep (none, 0, 0)).2.2 := by
  rw [List.foldl_append]
  cases l₀ with
  | nil =>
    simp only [List.foldl_nil]
    show m + 1 ≤
      ((some t :: chainFrom (t + 86400000) m).foldl streakStep (none, 0, 0)).2.2
    rw [List.foldl_cons]
    have hstep : streakStep (none, 0, 0) (some t) = (some (some t), 1, 1) := rfl
    rw [hstep]
    have hch := chain_run m (t + 86400000) 1 1 (le_refl 1)
    rw [show t + 86400000 - 86400000 = t from by ring] at hch
    omega
  | cons x l₀' =>
    obtain ⟨h1, h2, h3⟩ := foldl_streakStep_invariant (x :: l₀') (none, 0, 0)
      (le_refl 0) (fun h => absurd rfl h)
    have hprev := h3 (by simp)
    have hr₁ : 1 ≤ ((x :: l₀').foldl streakStep (none, 0, 0)).2.1 := h2 hprev
    show m + 1 ≤
      ((some t :: chainFrom (t + 86400000) m).foldl streakStep
        ((x :: l₀').foldl streakStep (none, 0, 0))).2.2
    rw [List.foldl_cons]
    have hrun : 1 ≤ (streakStep ((x :: l₀').foldl streakStep (none, 0, 0)) (some t)).2.1 :=
      streakStep_run_pos _ _ h2
    have hle : (streakStep ((x :: l₀').foldl streakStep (none, 0, 0)) (some t)).2.1 ≤
        (streakStep ((x :: l₀').foldl streakStep (none, 0, 0)) (some t)).2.2 :=
      streakStep_snd_le _ _
    have hch := chain_run m (t + 86400000)
      (streakStep ((x :: l₀').foldl streakStep (none, 0, 0)) (some t)).2.1
      (streakStep ((x :: l₀').foldl streakStep (none, 0, 0)) (some t)).2.2 hle
    rw [show t + 86400000 - 86400000 = t from by ring] at hch
    exact le_trans (by omega) hch

theorem currentStreak_le_longestStreak (now : Int) (records : List HabitRecord) :
    (calculateStreaks now records).currentStreak ≤
      (calculateStreaks now records).longestStreak := by
  unfold calculateStreaks
  split
  · exact le_refl 0
  · cases hrev : (sortDates ((records.filter fun r => r.completed).map
        fun r => getUTCDate r.date)).reverse with
    | nil =>
      have hnil := List.reverse_eq_nil_iff.mp hrev
      rw [hnil]
      exact le_refl 0
    | cons a rest =>
      rw [streaksFromDates_cons now hrev]
      split
      · rename_i hcondT
        cases a with
        | none => simp [jsEq] at hcondT
        | some t =>
          dsimp only
          have hyest : getUTCDate (some (now - 86400000)) =
              some (dayNorm now - 86400000) := by
            rw [getUTCDate_some, dayNorm_sub_day]
          rw [getUTCDate_some, hyest] at hcondT
          simp only [jsEq, beq_iff_eq, Bool.or_eq_true, decide_eq_true_eq] at hcondT
          have hdvdt : (86400000 : Int) ∣ t := by
            have hd := dvd_dayNorm now
            rcases hcondT with h | h <;> omega
          have hg : getUTCDate ((some t).map fun x => x - 86400000) =
              some (t - 86400000) := by
            show getUTCDate (some (t - 86400000)) = _
            exact getUTCDate_of_dvd (by omega)
          rw [hg]
          generalize hm : walkBack rest (some (t - 86400000)) = m
          obtain ⟨tail, htail⟩ := walkBack_struct rest (t - 86400000) m (by omega) hm
          have hdr := descChain_reverse m (t - 86400000)
          rw [show t - 86400000 + 86400000 = t from by ring] at hdr
          have hldecomp : sortDates ((records.filter fun r => r.completed).map
              fun r => getUTCDate r.date) =
              tail.reverse ++ chainFrom (t - 86400000 * (m : Int)) (m + 1) := by
            have hl : sortDates ((records.filter fun r => r.completed).map
                fun r => getUTCDate r.date) = rest.reverse ++ [some t] := by
              rw [← List.reverse_reverse (sortDates _), hrev, List.reverse_cons]
            rw [hl, htail, List.reverse_append, List.append_assoc, hdr]
          rw [hldecomp]
          have hlong := longest_ge_chain tail.reverse (t - 86400000 * (m : Int)) m
          omega
      · exact Nat.zero_le _

/-! ### Completion percentage -/

theorem completedDayList_cons_false {r : HabitRecord} (rs : List HabitRecord)
    (h : r.completed = false) : completedDayList (r :: rs) = completedDayList rs := by
  unfold completedDayList
  rw [List.filter_cons_of_neg (by simp [h])]

theorem completedDayList_cons_none {r : HabitRecord} (rs : List HabitRecord)
    (hc : r.completed = true) (hd : r.date = none) :
    completedDayList (r :: rs) = completedDayList rs := by
  unfold completedDayList
  rw [List.filter_cons_of_pos (by simp [hc]), List.filterMap_cons]
  simp [hd, getUTCDate]

theorem completedDayList_cons_some {r : HabitRecord} (rs : List HabitRecord)
    (hc : r.completed = true) {u : Int} (hd : r.date = some u) :
    completedDayList (r :: rs) = dayNorm u :: completedDayList rs := by
  unfold completedDayList
  rw [List.filter_cons_of_pos (by simp [hc]), List.filterMap_cons]
  simp [hd, getUTCDate]

theorem completedDayList_append (l1 l2 : List HabitRecord) :
    completedDayList (l1 ++ l2) = completedDayList l1 ++ completedDayList l2 := by
  unfold completedDayList
  rw [List.filter_append, List.filterMap_append]

theorem pctStep_not_completed (ts te : Int) (acc : Finset Int) (r : HabitRecord)
    (h : r.completed = false) : pctStep ts te acc r = acc := by
  unfold pctStep
  cases hgd : getUTCDate r.date with
  | none => rfl
  | some dt => simp [h]

theorem pctStep_date_none (ts te : Int) (acc : Finset Int) (r : HabitRecord)
    (hd : r.date = none) : pctStep ts te acc r = acc := by
  unfold pctStep
  rw [hd]
  rfl

theorem pctStep_date_some (ts te : Int) (acc : Finset Int) (r : HabitRecord) (u : Int)
    (hd : r.date = some u) :
    pctStep ts te acc r =
      if (ts ≤ dayNorm u ∧ dayNorm u ≤ te) ∧ r.completed then insert (dayNorm u) acc
      else acc := by
  unfold pctStep
  rw [hd, getUTCDate_some]

theorem foldl_pctStep_eq (ts te : Int) (records : List HabitRecord) :
    ∀ acc : Finset Int,
      records.foldl (pctStep ts te) acc =
        acc ∪ ((completedDayList records).filter
          fun d => decide (ts ≤ d ∧ d ≤ te)).toFinset := by
  induction records with
  | nil => intro acc; simp [completedDayList]
  | cons r rs ih =>
    intro acc
    rw [List.foldl_cons, ih]
    cases hc : r.completed with
    | false =>
      rw [pctStep_not_completed ts te acc r hc, completedDayList_cons_false rs hc]
    | true =>
      cases hd : r.date with
      | none =>
        rw [pctStep_date_none ts te acc r hd, completedDayList_cons_none rs hc hd]
      | some u =>
        rw [pctStep_date_some ts te acc r u hd, completedDayList_cons_some rs hc hd]
        by_cases hw : ts ≤ dayNorm u ∧ dayNorm u ≤ te
        · rw [if_pos ⟨hw, hc⟩, List.filter_cons_of_pos (by simpa using hw),
            List.toFinset_cons, Finset.insert_union, Finset.union_insert]
        · rw [if_neg (fun hcon => hw hcon.1), List.filter_cons_of_neg (by simpa using hw)]

theorem pct_valid_eq (records : List HabitRecord) (s e : Int) (hse : ¬e < s) :
    calculateCompletionPercentage (some records) (some s) (some e) =
      roundPct (((completedDayList records).filter
          fun d => decide (s ≤ d ∧ d ≤ e)).toFinset.card)
        (((e - s).toNat + 43200000) / 86400000 + 1) := by
  show (if e < s then 0
    else
      if ((e - s).toNat + 43200000) / 86400000 + 1 = 0 then 0
      else
        (200 * (records.foldl (pctStep s e) ∅).card +
            (((e - s).toNat + 43200000) / 86400000 + 1)) /
          (2 * (((e - s).toNat + 43200000) / 86400000 + 1))) = _
  rw [if_neg hse, if_neg (by omega : ¬((e - s).toNat + 43200000) / 86400000 + 1 = 0)]
  rw [foldl_pctStep_eq s e records ∅, Finset.empty_union]
  rfl

theorem totalDays_of_dvd {s e : Int} (hdvds : (86400000 : Int) ∣ s)
    (hdvde : (86400000 : Int) ∣ e) (_hse : s ≤ e) :
    ((e - s).toNat + 43200000) / 86400000 + 1 = totalDaysSpec s e := by
  unfold totalDaysSpec
  omega

theorem count_le_total (records : List HabitRecord) {s e : Int}
    (hdvds : (86400000 : Int) ∣ s) (hdvde : (86400000 : Int) ∣ e) (hse : s ≤ e) :
    completedDayCountSpec records s e ≤ totalDaysSpec s e := by
  unfold completedDayCountSpec totalDaysSpec
  have hsub : ((completedDayList records).filter
      fun d => decide (s ≤ d ∧ d ≤ e)).toFinset ⊆
      (Finset.range ((e - s).toNat / 86400000 + 1)).image
        (fun i : Nat => s + 86400000 * (i : Int)) := by
    intro d hd
    have hmem := List.mem_filter.mp (List.mem_toFinset.mp hd)
    have hdom : d ∈ completedDayList records := hmem.1
    have hrange : s ≤ d ∧ d ≤ e := by simpa using hmem.2
    have hdvdd := dvd_of_mem_completedDayList hdom
    refine Finset.mem_image.mpr ⟨(d - s).toNat / 86400000, Finset.mem_range.mpr ?_, ?_⟩
    · omega
    · omega
  refine le_trans (Finset.card_le_card hsub) ?_
  refine le_trans Finset.card_image_le ?_
  rw [Finset.card_range]

theorem roundPct_le_100 {n t : Nat} (h : n ≤ t) (ht : 0 < t) : roundPct n t ≤ 100 := by
  unfold roundPct
  have h1 : 200 * n + t ≤ 201 * t := by omega
  have h2 : (200 * n + t) / (2 * t) ≤ 201 * t / (2 * t) := Nat.div_le_div_right h1
  have h3 : 201 * t / (2 * t) = 100 := by
    rw [show 201 * t = t + 2 * t * 100 from by ring,
      Nat.add_mul_div_left _ _ (by omega : 0 < 2 * t),
      Nat.div_eq_of_lt (by omega : t < 2 * t)]
  omega

theorem roundPct_mono_left {a b t : Nat} (h : a ≤ b) : roundPct a t ≤ roundPct b t :=
  Nat.div_le_div_right (by omega)

theorem pct_lt_zero (l : List HabitRecord) (ts te : Int) (h : te < ts) :
    calculateCompletionPercentage (some l) (some ts) (some te) = 0 := by
  show (if te < ts then 0
    else
      if ((te - ts).toNat + 43200000) / 86400000 + 1 = 0 then 0
      else
        (200 * (l.foldl (pctStep ts te) ∅).card +
            (((te - ts).toNat + 43200000) / 86400000 + 1)) /
          (2 * (((te - ts).toNat + 43200000) / 86400000 + 1))) = 0
  rw [if_pos h]

theorem calculateStreaks_no_completed (now : Int) (records : List HabitRecord)
    (h : ∀ r ∈ records, r.completed = false) :
    calculateStreaks now records = ⟨0, 0⟩ := by
  by_cases hne : records = []
  · subst hne; rfl
  · unfold calculateStreaks
    rw [if_neg (by simpa [List.isEmpty_iff] using hne)]
    have hfil : records.filter (fun r => r.completed) = [] := by
      rw [List.filter_eq_nil_iff]
      intro a ha
      simp [h a ha]
    rw [hfil]
    rfl

/-! ### The claims -/

/-- C1, counterexample: the claim fails as stated. With completed records on
days yesterday, today, today (a duplicate of today) and the clock at the
epoch, the code returns currentStreak 1 — the duplicate entry for today does
not match the expected day yesterday and breaks the positional backward walk —
while the claimed backward walk over expected days (claimedCurrentStreak,
written from the words of the claim) yields 2. -/
theorem c1_current_counterexample :
    (calculateStreaks 0
      [⟨some (-86400000), true⟩, ⟨some 0, true⟩, ⟨some 0, true⟩]).currentStreak = 1 ∧
    claimedCurrentStreak 0
      [⟨some (-86400000), true⟩, ⟨some 0, true⟩, ⟨some 0, true⟩] = 2 := by
  constructor
  · decide
  · decide

/-- C1, amended: for inputs whose completed records all carry valid dates and
have pairwise-distinct normalized days, currentStreak is 0 when the
chronologically last completed day is neither today nor yesterday, and
otherwise is the backward-chain length from that day in the completed-day set
(1 for the last day itself, plus one for each successively older expected day
present, stopping at the first absent day) — amendedCurrentStreak. -/
theorem c1_current_amended (now : Int) (records : List HabitRecord)
    (hv : validCompleted records) (hnd : (completedDayList records).Nodup) :
    (calculateStreaks now records).currentStreak = amendedCurrentStreak now records :=
  current_of_calculateStreaks now records hv hnd

/-- C1, witness: completed days on exactly D-4, D-3, D-2, D-1, D with today = D
give currentStreak 5. -/
theorem c1_current_amended_witness :
    (calculateStreaks 0
      [⟨some (-345600000), true⟩, ⟨some (-259200000), true⟩, ⟨some (-172800000), true⟩,
        ⟨some (-86400000), true⟩, ⟨some 0, true⟩]).currentStreak = 5 :=
  (c1_current_amended 0
    [⟨some (-345600000), true⟩, ⟨some (-259200000), true⟩, ⟨some (-172800000), true⟩,
      ⟨some (-86400000), true⟩, ⟨some 0, true⟩]
    (by decide) (by decide)).trans (by decide)

/-- C2: for every input whose completed records all carry valid dates,
longestStreak equals the length of the longest run of consecutive UTC calendar
days in the set of distinct completed days (longestRunSpec); the
reset-1-at-gap / keep-at-duplicate / increment-at-consecutive walk described by
the claim is the loop of the code itself, and this theorem proves it computes
exactly that set-level quantity. -/
theorem c2_longest_streak (now : Int) (records : List HabitRecord)
    (hv : validCompleted records) :
    (calculateStreaks now records).longestStreak =
      longestRunSpec (completedDayList records).toFinset := by
  rw [longest_of_calculateStreaks now records hv]
  exact sup_backChain_eq_sup_fwdChain _

/-- C2, witness: completed days 0, 1 and 3 (with a duplicate-free list) have a
longest run of 2, and the code returns longestStreak 2. -/
theorem c2_longest_streak_witness :
    (calculateStreaks 0
      [⟨some 0, true⟩, ⟨some 86400000, true⟩, ⟨some 259200000, true⟩]).longestStreak = 2 :=
  (c2_longest_streak 0
    [⟨some 0, true⟩, ⟨some 86400000, true⟩, ⟨some 259200000, true⟩]
    (by decide)).trans (by decide)

/-- C3: for every record list and UTC-midnight bounds with startDate ≤ endDate,
the completion percentage is round(100 * numerator / totalDays) — numerator the
number of distinct completed UTC days inside the window, totalDays the
inclusive whole-day span — and the result never exceeds 100. -/
theorem c3_completion_percentage (records : List HabitRecord) (s e : Int)
    (hs : (86400000 : Int) ∣ s) (he : (86400000 : Int) ∣ e) (hse : s ≤ e) :
    calculateCompletionPercentage (some records) (some s) (some e) =
      roundPct (completedDayCountSpec records s e) (totalDaysSpec s e) ∧
    calculateCompletionPercentage (some records) (some s) (some e) ≤ 100 := by
  have h1 := pct_valid_eq records s e (by omega)
  rw [totalDays_of_dvd hs he hse] at h1
  refine ⟨h1, ?_⟩
  rw [h1]
  exact roundPct_le_100 (count_le_total records hs he hse) (Nat.succ_pos _)

/-- C3, witness: a 7-day window with exactly 3 distinct completed days gives
round(300 / 7) = 43. -/
theorem c3_completion_percentage_witness :
    calculateCompletionPercentage
      (some [⟨some 0, true⟩, ⟨some 86400000, true⟩, ⟨some 172800000, true⟩])
      (some 0) (some 518400000) = 43 :=
  ((c3_completion_percentage
      [⟨some 0, true⟩, ⟨some 86400000, true⟩, ⟨some 172800000, true⟩]
      0 518400000 (by norm_num) (by norm_num) (by norm_num)).1).trans (by decide)

/-- C4: evaluation of the code at the failing input. A single completed record
with an invalid date is NOT dropped by the preparation filter of
calculateStreaks (the filter tests only the completed flag), so the function
returns longestStreak 1 where the claimed behaviour — dropping the invalid
entry — would give the empty-input result 0 for both fields. -/
theorem c4_invalid_not_dropped :
    calculateStreaks 0 [⟨none, true⟩] = ⟨0, 1⟩ := by decide

/-- C5: calculateCompletionPercentage returns exactly 0 when the collection is
absent, either bound is an invalid date, or startDate is after endDate; the
model is a total function, so it returns normally. -/
theorem c5_invalid_inputs (records : Option (List HabitRecord)) (s e : Option Int)
    (h : records = none ∨ s = none ∨ e = none ∨
      ∃ ts te, s = some ts ∧ e = some te ∧ te < ts) :
    calculateCompletionPercentage records s e = 0 := by
  rcases h with rfl | rfl | rfl | ⟨ts, te, rfl, rfl, hlt⟩
  · cases s <;> cases e <;> rfl
  · cases records <;> cases e <;> rfl
  · cases records with
    | none => cases s <;> rfl
    | some l => cases s <;> rfl
  · cases records with
    | none => rfl
    | some l => exact pct_lt_zero l ts te hlt

/-- C5, witness: an absent collection yields 0. -/
theorem c5_invalid_inputs_witness :
    calculateCompletionPercentage none (some 0) (some 0) = 0 :=
  c5_invalid_inputs none (some 0) (some 0) (Or.inl rfl)

/-- C6, counterexample: reordering CAN change the output of calculateStreaks
when an invalid-dated completed record is present. The two lists below are
permutations of each other, yet with the clock at the epoch one returns
currentStreak 1 and the other currentStreak 0: the comparator of the internal
sort returns NaN against the invalid date, so the engine keeps the relative
order, and whichever record ends up last decides the current streak. -/
theorem c6_order_counterexample :
    ([⟨none, true⟩, ⟨some 0, true⟩] : List HabitRecord).Perm
      [⟨some 0, true⟩, ⟨none, true⟩] ∧
    calculateStreaks 0 [⟨none, true⟩, ⟨some 0, true⟩] ≠
      calculateStreaks 0 [⟨some 0, true⟩, ⟨none, true⟩] := by
  constructor
  · exact List.Perm.swap (⟨some 0, true⟩ : HabitRecord) (⟨none, true⟩ : HabitRecord) []
  · decide

/-- C6, amended: calculateCompletionPercentage is order-independent for every
input, and calculateStreaks is order-independent for every input whose
completed records all carry valid dates. -/
theorem c6_order_independence (now : Int) (s e : Option Int)
    (l₁ l₂ : List HabitRecord) (hperm : l₁.Perm l₂) :
    (validCompleted l₁ → calculateStreaks now l₁ = calculateStreaks now l₂) ∧
    calculateCompletionPercentage (some l₁) s e =
      calculateCompletionPercentage (some l₂) s e := by
  have hperm' : (completedDayList l₁).Perm (completedDayList l₂) :=
    List.Perm.filterMap _ (List.Perm.filter _ hperm)
  constructor
  · intro hv
    have hv₂ : validCompleted l₂ := fun r hr => hv r (hperm.mem_iff.mpr hr)
    by_cases h1 : l₁ = []
    · subst h1
      have h2 : l₂ = [] := hperm.symm.eq_nil
      rw [h2]
    · have h2 : l₂ ≠ [] := by
        intro h
        subst h
        exact h1 hperm.eq_nil
      rw [calculateStreaks_valid_eq now l₁ hv h1, calculateStreaks_valid_eq now l₂ hv₂ h2]
      have hsame : intSort (completedDayList l₁) = intSort (completedDayList l₂) :=
        List.eq_of_perm_of_sorted
          ((intSort_perm _).trans (hperm'.trans (intSort_perm _).symm))
          (intSort_sorted _) (intSort_sorted _)
      rw [hsame]
  · cases s with
    | none => rfl
    | some ts =>
      cases e with
      | none => rfl
      | some te =>
        by_cases hlt : te < ts
        · rw [pct_lt_zero l₁ ts te hlt, pct_lt_zero l₂ ts te hlt]
        · rw [pct_valid_eq l₁ ts te hlt, pct_valid_eq l₂ ts te hlt]
          congr 1
          exact congrArg Finset.card
            (List.toFinset_eq_of_perm _ _ (hperm'.filter _))

/-- C6, witness: swapping two valid-dated records changes neither function. -/
theorem c6_order_independence_witness :
    calculateStreaks 86400000 [⟨some 86400000, true⟩, ⟨some 0, true⟩] =
      calculateStreaks 86400000 [⟨some 0, true⟩, ⟨some 86400000, true⟩] ∧
    calculateCompletionPercentage (some [⟨some 86400000, true⟩, ⟨some 0, true⟩])
        (some 0) (some 86400000) =
      calculateCompletionPercentage (some [⟨some 0, true⟩, ⟨some 86400000, true⟩])
        (some 0) (some 86400000) :=
  ⟨(c6_order_independence 86400000 (some 0) (some 86400000) _ _
      (List.Perm.swap (⟨some 0, true⟩ : HabitRecord)
        (⟨some 86400000, true⟩ : HabitRecord) [])).1 (by decide),
   (c6_order_independence 86400000 (some 0) (some 86400000) _ _
      (List.Perm.swap (⟨some 0, true⟩ : HabitRecord)
        (⟨some 86400000, true⟩ : HabitRecord) [])).2⟩

/-- C7: an empty input, or an input with no completed records, yields
currentStreak 0 and longestStreak 0. -/
theorem c7_no_completed (now : Int) (records : List HabitRecord)
    (h : ∀ r ∈ records, r.completed = false) :
    calculateStreaks now records = ⟨0, 0⟩ :=
  calculateStreaks_no_completed now records h

/-- C7, witness: a single not-completed record yields the zero result. -/
theorem c7_no_completed_witness :
    calculateStreaks 0 [⟨some 0, false⟩] = ⟨0, 0⟩ :=
  c7_no_completed 0 [⟨some 0, false⟩] (by decide)

/-- C8: inserting (equivalently, removing) a record with completed = false at
any position changes neither the streaks nor the completion percentage for any
window. -/
theorem c8_false_records (now : Int) (l1 l2 : List HabitRecord) (r : HabitRecord)
    (s e : Option Int) (hr : r.completed = false) :
    calculateStreaks now (l1 ++ r :: l2) = calculateStreaks now (l1 ++ l2) ∧
    calculateCompletionPercentage (some (l1 ++ r :: l2)) s e =
      calculateCompletionPercentage (some (l1 ++ l2)) s e := by
  have hfil : (l1 ++ r :: l2).filter (fun x => x.completed) =
      (l1 ++ l2).filter (fun x => x.completed) := by
    rw [List.filter_append, List.filter_append, List.filter_cons_of_neg (by simp [hr])]
  have hcdl : completedDayList (l1 ++ r :: l2) = completedDayList (l1 ++ l2) := by
    unfold completedDayList
    rw [hfil]
  constructor
  · by_cases h12 : l1 ++ l2 = []
    · have hall : ∀ x ∈ l1 ++ r :: l2, x.completed = false := by
        intro x hx
        rcases List.mem_append.mp hx with hx1 | hx2
        · exact absurd (List.mem_append.mpr (Or.inl hx1)) (by rw [h12]; simp)
        · rcases List.mem_cons.mp hx2 with rfl | hx3
          · exact hr
          · exact absurd (List.mem_append.mpr (Or.inr hx3)) (by rw [h12]; simp)
      rw [calculateStreaks_no_completed now _ hall, h12]
      rfl
    · unfold calculateStreaks
      rw [if_neg (by simp [List.isEmpty_iff]), if_neg (by simpa [List.isEmpty_iff] using h12),
        hfil]
  · cases s with
    | none => rfl
    | some ts =>
      cases e with
      | none => rfl
      | some te =>
        by_cases hlt : te < ts
        · rw [pct_lt_zero _ ts te hlt, pct_lt_zero _ ts te hlt]
        · rw [pct_valid_eq _ ts te hlt, pct_valid_eq _ ts te hlt, hcdl]

/-- C8, witness: a concrete insertion of a completed = false record in the
middle changes neither output. -/
theorem c8_false_records_witness :
    calculateStreaks 0 [⟨some 0, true⟩, ⟨some 43200000, false⟩, ⟨some 86400000, true⟩] =
      calculateStreaks 0 [⟨some 0, true⟩, ⟨some 86400000, true⟩] ∧
    calculateCompletionPercentage
        (some [⟨some 0, true⟩, ⟨some 43200000, false⟩, ⟨some 86400000, true⟩])
        (some 0) (some 86400000) =
      calculateCompletionPercentage (some [⟨some 0, true⟩, ⟨some 86400000, true⟩])
        (some 0) (some 86400000) :=
  c8_false_records 0 [⟨some 0, true⟩] [⟨some 86400000, true⟩] ⟨some 43200000, false⟩
    (some 0) (some 86400000) rfl

/-- C9, refutation of the claim as stated: there is NO input on which
currentStreak exceeds longestStreak — the matched tail of the backward
current-streak walk is an ascending run of consecutive days ending the sorted
list, and the longest-streak loop counts at least that run. -/
theorem c9_no_counterexample :
    ¬∃ (now : Int) (records : List HabitRecord),
      (calculateStreaks now records).longestStreak <
        (calculateStreaks now records).currentStreak := by
  rintro ⟨now, records, h⟩
  exact absurd (currentStreak_le_longestStreak now records) (by omega)

/-- C9, amended: the cross-field invariant currentStreak ≤ longestStreak holds
for every input and every clock reading (both fields are non-negative by
type). -/
theorem c9_current_le_longest (now : Int) (records : List HabitRecord) :
    (calculateStreaks now records).currentStreak ≤
      (calculateStreaks now records).longestStreak :=
  currentStreak_le_longestStreak now records

/-- C10: appending a record never decreases the completion percentage: the
denominator is fixed by the window and the distinct completed-day set can only
grow. -/
theorem c10_append_monotone (records : List HabitRecord) (r : HabitRecord)
    (s e : Option Int) :
    calculateCompletionPercentage (some records) s e ≤
      calculateCompletionPercentage (some (records ++ [r])) s e := by
  cases s with
  | none => exact le_refl 0
  | some ts =>
    cases e with
    | none => exact le_refl 0
    | some te =>
      by_cases hlt : te < ts
      · rw [pct_lt_zero _ ts te hlt, pct_lt_zero _ ts te hlt]
      · rw [pct_valid_eq _ ts te hlt, pct_valid_eq _ ts te hlt]
        apply roundPct_mono_left
        apply Finset.card_le_card
        rw [completedDayList_append, List.filter_append, List.toFinset_append]
        exact Finset.subset_union_left

end Habit
